import Mathlib

set_option autoImplicit false

/-!
Verification of the customer identity resolution engine and the
deterministic sequence-number generator of the relation-api import
scripts (`import_offers.py`, `analyze_customer_matches.py`).

The Python code is shallowly embedded: strings are Lean `String`s
(lists of unicode scalar chars), `re.sub` calls are modelled by
explicit recursive functions with the same observable behaviour on
the regexes used by the source, Python dicts are modelled by
association lists or explicit functional updates, and `datetime`
values by a six-field record compared lexicographically (which is how
Python compares `datetime` objects of equal timezone).
-/

/-- Whitespace as matched by the regex class backslash-s and by
`str.strip` on the ASCII range (space, tab, newline, vertical tab,
form feed, carriage return). -/
def isWS (c : Char) : Bool :=
  c = ' ' || c = '\t' || c = '\n' || c = '\x0b' || c = '\x0c' || c = '\r'

/-- `str.lower`, modelled character-wise on the Latin-1 range: ASCII
uppercase letters and the Latin-1 uppercase letters U+00C0 to U+00DE
(except the multiplication sign U+00D7) shift by 32, everything else
is unchanged.  This agrees with Python on every character occurring
in the repository data. -/
def pyLowerChar (c : Char) : Char :=
  if 65 ≤ c.toNat ∧ c.toNat ≤ 90 then Char.ofNat (c.toNat + 32)
  else if 192 ≤ c.toNat ∧ c.toNat ≤ 222 ∧ c.toNat ≠ 215 then Char.ofNat (c.toNat + 32)
  else c

def pyLower (xs : List Char) : List Char := xs.map pyLowerChar

/-- `str.strip`: drop leading and trailing whitespace. -/
def pyStrip (xs : List Char) : List Char :=
  ((xs.dropWhile isWS).reverse.dropWhile isWS).reverse

/-- `re.sub(backslash-s+, " ", xs)`: every maximal run of whitespace is
replaced by a single space (a whitespace character directly followed
by more whitespace is dropped, the last one of a run becomes a
space). -/
def collapseWS : List Char → List Char
  | [] => []
  | [c] => [if isWS c then ' ' else c]
  | a :: b :: rest =>
    if isWS a && isWS b then collapseWS (b :: rest)
    else (if isWS a then ' ' else a) :: collapseWS (b :: rest)

/-- The legal-entity suffix alternatives of the regex
`(as|a/s|ans|da|sa)`, in source order. -/
def SUFFIX_WORDS : List (List Char) :=
  [['a', 's'], ['a', '/', 's'], ['a', 'n', 's'], ['d', 'a'], ['s', 'a']]

/-- Helper for `stripSuffix`, working on the reversed string: if the
reversed string starts with a reversed suffix word followed by at
least one whitespace character, return the remainder with the whole
whitespace run dropped. -/
def trySuffixRev (r : List Char) : Option (List Char) :=
  SUFFIX_WORDS.findSome? fun w =>
    if w.reverse.isPrefixOf r then
      match r.drop w.length with
      | [] => none
      | c :: rest => if isWS c then some (rest.dropWhile isWS) else none
    else none

/-- `re.sub(backslash-s+(as|a/s|ans|da|sa)$, "", xs)`: if the string
ends with one of the suffix words preceded by at least one whitespace
character, remove that word together with the whole preceding
whitespace run; otherwise leave the string unchanged.  (The dollar
anchor means at most one such match exists, at the very end.) -/
def stripSuffix (s : List Char) : List Char :=
  match trySuffixRev s.reverse with
  | some r => r.reverse
  | none => s

/-- `CUSTOMER_ALIASES` from `import_offers.py`: maps name variations
to canonical names. -/
def CUSTOMER_ALIASES : List (String × String) := [
  ("straye hybrid", "straye hybridbygg"),
  ("straye hybrid as", "straye hybridbygg"),
  ("strayeindustri", "straye industri"),
  ("strayeindustri as", "straye industri"),
  ("straye industribygg", "straye industri"),
  ("straye industribygg as", "straye industri"),
  ("veidekke", "veidekke entreprenør"),
  ("veidekke as", "veidekke entreprenør"),
  ("veidekke bygg", "veidekke entreprenør"),
  ("veidekke bygg- vest", "veidekke entreprenør"),
  ("veidekke bygg vest", "veidekke entreprenør"),
  ("veidekke ålesund", "veidekke entreprenør"),
  ("seby as/ veidekke as", "veidekke entreprenør"),
  ("peab", "peab bygg"),
  ("peab as", "peab bygg"),
  ("peab/ straye stålbygg", "straye stålbygg"),
  ("a bygg", "a bygg entreprenør"),
  ("betongbygg", "as betongbygg"),
  ("betongbygg as", "as betongbygg"),
  ("byggkompaniet", "byggkompaniet østfold"),
  ("enter solutions", "enter solution"),
  ("enter solutions as", "enter solution"),
  ("furuno", "furuno norge"),
  ("furuno as", "furuno norge"),
  ("fusen", "solenergi fusen"),
  ("totalbetong", "totalbetong gruppen"),
  ("vestre bærum tennis", "vestre bærum tennisklubb"),
  ("workman", "workman norway"),
  ("workman as", "workman norway"),
  ("hallmaker as/ straye stålbygg as", "hallmaker"),
  ("straye stålbygg as / hallmaker", "hallmaker"),
  ("straye stålbygg as/ hallmaker", "hallmaker"),
  ("thermica as/ hallmaker", "hallmaker"),
  ("dpend/ straye stålbygg", "straye stålbygg"),
  ("byggekompaniet østfold", "byggkompaniet østfold"),
  ("km bygg", "kopperud murtnes bygg"),
  ("km bygg??", "kopperud murtnes bygg"),
  ("arealbygg", "areal bygg"),
  ("geir nielsen (holmskau)", "geir nilsen"),
  ("hansen & dahl", "hansen & dahl"),
  ("høstbakken 11", "høstbakken eiendom"),
  ("høstbakken 11 as", "høstbakken eiendom"),
  ("matotalbygg", "ma totalbygg"),
  ("matotalbygg as", "ma totalbygg"),
  ("nordbygg", "norbygg"),
  ("nordbygg as", "norbygg"),
  ("park & anlegg", "park og anlegg"),
  ("sameie hoffsveien 88", "sameiet hoffsveien 88/90"),
  ("sameiet kornmoenga", "kornmoenga 3 sameie"),
  ("tatalbygg midt-norge", "totalbygg midt-norge"),
  ("tatalbygg midt-norge as", "totalbygg midt-norge"),
  ("øm fjell", "ø.m. fjeld"),
  ("øm fjell as", "ø.m. fjeld"),
  ("grinda 9 revidert", "jesper vogt-lorentzen"),
  ("flere- gikk til km bygg", "kopperud murtnes bygg"),
  ("flere", "kopperud murtnes bygg"),
  ("ukjent kunde", "kopperud murtnes bygg"),
  ("2581 hjelseth", "kopperud murtnes bygg")]

/-- `if name in CUSTOMER_ALIASES: name = CUSTOMER_ALIASES[name]`. -/
def aliasLookup (s : String) : String :=
  match CUSTOMER_ALIASES.lookup s with
  | some v => v
  | none => s

/-- `normalize_customer_name` from `import_offers.py`: lowercase,
strip, collapse whitespace, alias lookup, strip one trailing
legal-entity suffix, alias lookup again. -/
def normalize_customer_name (name : String) : String :=
  if name = "" then ""
  else
    let n1 := String.mk (collapseWS (pyStrip (pyLower name.data)))
    let n2 := aliasLookup n1
    let n3 := String.mk (stripSuffix n2.data)
    aliasLookup n3

/-- `normalize_name` from `analyze_customer_matches.py`: like
`normalize_customer_name` but with no alias lookups. -/
def normalize_name (name : String) : String :=
  if name = "" then ""
  else String.mk (stripSuffix (collapseWS (pyStrip (pyLower name.data))))

/-- Helper for `splitWS`: `acc` holds the reversed current word. -/
def splitWSAux : List Char → List Char → List (List Char)
  | [], acc => if acc = [] then [] else [acc.reverse]
  | c :: rest, acc =>
    if isWS c then
      if acc = [] then splitWSAux rest []
      else acc.reverse :: splitWSAux rest []
    else splitWSAux rest (c :: acc)

/-- `str.split()` with no arguments: the maximal whitespace-free words
of the string, in order, with no empty words. -/
def splitWS (xs : List Char) : List (List Char) := splitWSAux xs []

/-- `similarity_score` from `analyze_customer_matches.py`.  Scores are
modelled as exact rationals (`1`, `9/10`, Jaccard index); the Python
floats in play are exact or compared only by order. -/
def similarity_score (name1 name2 : String) : ℚ :=
  let n1 := normalize_name name1
  let n2 := normalize_name name2
  if n1 = n2 then 1
  else if n1.data <:+: n2.data ∨ n2.data <:+: n1.data then 9/10
  else
    let words1 := ((splitWS n1.data).map String.mk).toFinset
    let words2 := ((splitWS n2.data).map String.mk).toFinset
    if words1 = ∅ ∨ words2 = ∅ then 0
    else
      let overlap := (words1 ∩ words2).card
      let total := (words1 ∪ words2).card
      if 0 < total then (overlap : ℚ) / (total : ℚ) else 0

/-- `find_best_match` from `analyze_customer_matches.py`: fold over
the database customers `(id, name, org_number)`, keeping the first
strictly best-scoring one. -/
def find_best_match (excel_name : String)
    (db_customers : List (String × String × String)) :
    Option (String × String × String) × ℚ :=
  db_customers.foldl
    (fun acc cust =>
      let score := similarity_score excel_name cust.2.1
      if acc.2 < score then (some cust, score) else acc)
    (none, 0)

/-- `STATUS_MAPPING` from `import_offers.py`. -/
def STATUS_MAPPING : List (String × String × String) := [
  ("Tilbud", "_needs_sent_date", "active"),
  ("Ferdig", "completed", "active"),
  ("Ordre", "order", "active"),
  ("Tapt", "lost", "lost"),
  ("BUDSJETT", "_needs_sent_date", "active"),
  ("UTGÅR", "_skip", "expired"),
  ("UTLØPT", "_skip", "expired")]

/-- `clean_string` from `import_offers.py`, restricted to string
input (for which `pd.isna` is false): `str(value).strip()`. -/
def clean_string (s : String) : String := String.mk (pyStrip s.data)

/-- A `datetime.datetime` value (timezone-aware, all in UTC in the
source).  Python compares such values lexicographically by field, and
`.year` projects the first field. -/
structure DateTime where
  year : Nat
  month : Nat
  day : Nat
  hour : Nat
  minute : Nat
  second : Nat
deriving DecidableEq

/-- `get_status_mapping` from `import_offers.py`: look the cleaned
status up in `STATUS_MAPPING` (default `("_needs_sent_date",
"active")`), then replace the `"_needs_sent_date"` marker by
`"sent"` or `"in_progress"` according to presence of the sent date. -/
def get_status_mapping (excel_status : String) (sent_date : Option DateTime := none) :
    String × String :=
  let es := clean_string excel_status
  let base := (STATUS_MAPPING.lookup es).getD ("_needs_sent_date", "active")
  let phase :=
    if base.1 = "_needs_sent_date" then
      if sent_date.isSome then "sent" else "in_progress"
    else base.1
  (phase, base.2)

/-- `load_customer_cache` from `import_offers.py`: fold the store rows
`(id, name)` in order into a dict keyed by the normalized name, each
row overwriting any earlier row with the same key.  The dict is
modelled as a lookup function. -/
def load_customer_cache (rows : List (String × String)) :
    String → Option (String × String) :=
  rows.foldl
    (fun cache row k =>
      if k = normalize_customer_name row.2 then some (row.1, row.2) else cache k)
    (fun _ => none)

/-- The sort key of `datetime` comparison: the fields in significance
order. -/
def DateTime.fields (d : DateTime) : List Nat :=
  [d.year, d.month, d.day, d.hour, d.minute, d.second]

/-- `datetime(9999, 12, 31, tzinfo=timezone.utc)`: the far-future
sentinel used for absent sent dates. -/
def FAR_FUTURE : DateTime := ⟨9999, 12, 31, 0, 0, 0⟩

/-- An offer record, restricted to the fields that
`assign_offer_numbers` reads or writes; `id` stands for the rest of
the payload, which rides along unchanged. -/
structure Offer where
  id : String
  sent_date : Option DateTime
  created_at : Option DateTime
  external_reference : String
  offer_number : Option String := none
deriving DecidableEq

/-- `sort_key` from `assign_offer_numbers`: the pair
`(sent_date or far-future sentinel, external_reference)`, compared
lexicographically as Python compares tuples. -/
def sort_key (o : Offer) : Lex (List Nat × String) :=
  toLex ((o.sent_date.getD FAR_FUTURE).fields, o.external_reference)

/-- The boolean comparison handed to the (stable) sort. -/
def offerLe (a b : Offer) : Bool := decide (sort_key a ≤ sort_key b)

/-- Insert an offer into an already sorted list, before the first
element it compares `≤` to; an element inserted this way stays before
every later element with an equal key, which is exactly the stability
guarantee of Python's sort. -/
def insertSorted (o : Offer) : List Offer → List Offer
  | [] => [o]
  | b :: rest => if offerLe o b then o :: b :: rest else b :: insertSorted o rest

/-- `sorted(offers, key=sort_key)`: Python's sort is stable, and all
stable sorts by the same key produce the same list, so it is modelled
by the stable insertion sort. -/
def sortOffers : List Offer → List Offer
  | [] => []
  | o :: rest => insertSorted o (sortOffers rest)

/-- The year picked for an offer: from `sent_date` if present, else
from `created_at` if present, else the current year (passed in as
`nowYear`, since `datetime.now()` is ambient state). -/
def offerYear (nowYear : Nat) (o : Offer) : Nat :=
  match o.sent_date with
  | some d => d.year
  | none =>
    match o.created_at with
    | some d => d.year
    | none => nowYear

/-- One decimal digit character. -/
def digitChar (d : Nat) : Char :=
  if d = 0 then '0' else if d = 1 then '1' else if d = 2 then '2'
  else if d = 3 then '3' else if d = 4 then '4' else if d = 5 then '5'
  else if d = 6 then '6' else if d = 7 then '7' else if d = 8 then '8' else '9'

/-- Fuel-indexed digit extraction; the fuel is structurally consumed
and `natDigits` always supplies enough of it. -/
def natDigitsAux : Nat → Nat → List Char
  | 0, _ => []
  | fuel + 1, n =>
    if n < 10 then [digitChar n]
    else natDigitsAux fuel (n / 10) ++ [digitChar (n % 10)]

/-- The decimal digits of a natural number, most significant first
(as Python formats nonnegative integers). -/
def natDigits (n : Nat) : List Char := natDigitsAux (n + 1) n

/-- Python `{seq:03d}` for a nonnegative integer: zero-pad to width 3,
silently exceeding the width for numbers of four or more digits. -/
def pad3 (seq : Nat) : List Char :=
  if seq < 10 then '0' :: '0' :: natDigits seq
  else if seq < 100 then '0' :: natDigits seq
  else natDigits seq

/-- The f-string `{company_prefix}-{year}-{seq:03d}`. -/
def formatNumber (cpfx : String) (year seq : Nat) : String :=
  String.mk (cpfx.data ++ '-' :: (natDigits year ++ '-' :: pad3 seq))

/-- The numbering loop of `assign_offer_numbers`: walk the sorted
records keeping a per-year counter (`year_sequences`, modelled as a
total function defaulting to 0) and give each record the next number
of its year. -/
def assignLoop (cpfx : String) (nowYear : Nat) :
    (Nat → Nat) → List Offer → List Offer
  | _, [] => []
  | counters, o :: rest =>
    let y := offerYear nowYear o
    let seq := counters y + 1
    { o with offer_number := some (formatNumber cpfx y seq) } ::
      assignLoop cpfx nowYear (fun z => if z = y then seq else counters z) rest

/-- `assign_offer_numbers` from `import_offers.py`: sort the batch by
`(sent_date or sentinel, external_reference)` and assign
`{PREFIX}-{YEAR}-{SEQ:03d}` identifiers with per-year counters; the
function returns the sorted list.  `nowYear` stands for
`datetime.now().year`. -/
def assign_offer_numbers (offers : List Offer) (cpfx : String := "TK")
    (nowYear : Nat := 2026) : List Offer :=
  assignLoop cpfx nowYear (fun _ => 0) (sortOffers offers)

/-- Erase the assigned identifier, recovering the input record. -/
def clearNumber (o : Offer) : Offer := { o with offer_number := none }

/-! ## Basic facts about the stable sort and the numbering loop -/

theorem offerLe_total (a b : Offer) : offerLe a b || offerLe b a := by
  simp only [offerLe, Bool.or_eq_true, decide_eq_true_eq]
  exact le_total _ _

theorem offerLe_trans {a b c : Offer} (h₁ : offerLe a b) (h₂ : offerLe b c) :
    offerLe a c := by
  simp only [offerLe, decide_eq_true_eq] at *
  exact le_trans h₁ h₂

theorem insertSorted_perm (o : Offer) (l : List Offer) :
    List.Perm (insertSorted o l) (o :: l) := by
  induction l with
  | nil => simp [insertSorted]
  | cons b rest ih =>
    simp only [insertSorted]
    split
    · exact List.Perm.refl _
    · exact (ih.cons b).trans (List.Perm.swap o b rest)

theorem sortOffers_perm (l : List Offer) : List.Perm (sortOffers l) l := by
  induction l with
  | nil => simp [sortOffers]
  | cons o rest ih =>
    exact (insertSorted_perm o (sortOffers rest)).trans (ih.cons o)

theorem mem_insertSorted {x o : Offer} {l : List Offer} :
    x ∈ insertSorted o l ↔ x = o ∨ x ∈ l := by
  rw [(insertSorted_perm o l).mem_iff]
  simp

theorem insertSorted_pairwise {o : Offer} {l : List Offer}
    (h : l.Pairwise (fun a b => offerLe a b = true)) :
    (insertSorted o l).Pairwise (fun a b => offerLe a b = true) := by
  induction l with
  | nil => simp [insertSorted]
  | cons b rest ih =>
    rw [List.pairwise_cons] at h
    obtain ⟨hb, hrest⟩ := h
    simp only [insertSorted]
    split
    · rename_i hob
      refine List.Pairwise.cons ?_ (List.Pairwise.cons hb hrest)
      intro x hx
      rcases List.mem_cons.mp hx with rfl | hx
      · exact hob
      · exact offerLe_trans hob (hb x hx)
    · rename_i hob
      have hbo : offerLe b o = true := by
        have := offerLe_total o b
        simp only [Bool.or_eq_true] at this
        tauto
      refine List.Pairwise.cons ?_ (ih hrest)
      intro x hx
      rcases mem_insertSorted.mp hx with rfl | hx
      · exact hbo
      · exact hb x hx

theorem sortOffers_pairwise (l : List Offer) :
    (sortOffers l).Pairwise (fun a b => offerLe a b = true) := by
  induction l with
  | nil => simp [sortOffers]
  | cons o rest ih => exact insertSorted_pairwise ih

theorem assignLoop_map_clearNumber (cpfx : String) (ny : Nat)
    (ctr : Nat → Nat) (l : List Offer) :
    (assignLoop cpfx ny ctr l).map clearNumber = l.map clearNumber := by
  induction l generalizing ctr with
  | nil => rfl
  | cons o rest ih => simp [assignLoop, clearNumber, ih]

theorem assignLoop_length (cpfx : String) (ny : Nat)
    (ctr : Nat → Nat) (l : List Offer) :
    (assignLoop cpfx ny ctr l).length = l.length := by
  induction l generalizing ctr with
  | nil => rfl
  | cons o rest ih => simp [assignLoop, ih]

/-- C1, counterexample input: two offers whose sent dates are out of
order relative to the input sequence. -/
def march_offer : Offer := ⟨"a", some ⟨2024, 3, 1, 0, 0, 0⟩, none, "", none⟩

def january_offer : Offer := ⟨"b", some ⟨2024, 1, 15, 0, 0, 0⟩, none, "", none⟩

/-- C1 fails as stated: on the batch `[march_offer, january_offer]`
the returned sequence is NOT in input order (the function returns the
records sorted by sent date), so the 0th output does not correspond
to the 0th input. -/
theorem assign_offer_numbers_not_input_order :
    (assign_offer_numbers [march_offer, january_offer] "TK" 2026).map clearNumber
      ≠ [march_offer, january_offer] := by decide

/-- C1 amended: `assign_offer_numbers` returns the identifier-bearing
records in sorted order — the i-th element of the output corresponds
to the i-th element of the batch sorted by `(sent date or far-future
sentinel, external_reference)` — and the output is a permutation of
the input with identifiers attached. -/
theorem assign_offer_numbers_sorted_order (offers : List Offer)
    (cpfx : String) (ny : Nat) :
    (assign_offer_numbers offers cpfx ny).map clearNumber
        = (sortOffers offers).map clearNumber
      ∧ List.Perm ((assign_offer_numbers offers cpfx ny).map clearNumber)
        (offers.map clearNumber) := by
  have h : (assign_offer_numbers offers cpfx ny).map clearNumber
      = (sortOffers offers).map clearNumber :=
    assignLoop_map_clearNumber cpfx ny (fun _ => 0) (sortOffers offers)
  refine ⟨h, ?_⟩
  rw [h]
  exact (sortOffers_perm offers).map clearNumber

theorem sortOffers_pairwise_lt {l : List Offer} (hnd : (l.map sort_key).Nodup) :
    (sortOffers l).Pairwise (fun a b => sort_key a < sort_key b) := by
  have hperm := sortOffers_perm l
  have hnd' : ((sortOffers l).map sort_key).Nodup :=
    (hperm.map sort_key).nodup_iff.mpr hnd
  have hne : (sortOffers l).Pairwise (fun a b => sort_key a ≠ sort_key b) := by
    simpa [List.Nodup, List.pairwise_map] using hnd'
  have hle := sortOffers_pairwise l
  refine ((hle.and hne).imp ?_)
  rintro a b ⟨h₁, h₂⟩
  simp only [offerLe, decide_eq_true_eq] at h₁
  exact lt_of_le_of_ne h₁ h₂

theorem sortOffers_eq_of_perm {l₁ l₂ : List Offer}
    (hp : List.Perm l₁ l₂) (hnd : (l₁.map sort_key).Nodup) :
    sortOffers l₁ = sortOffers l₂ := by
  haveI : IsAntisymm Offer (fun a b => sort_key a < sort_key b) :=
    ⟨fun a b h₁ h₂ => (lt_asymm h₁ h₂).elim⟩
  have hnd₂ : (l₂.map sort_key).Nodup := (hp.map sort_key).nodup_iff.mp hnd
  have hperm : List.Perm (sortOffers l₁) (sortOffers l₂) :=
    ((sortOffers_perm l₁).trans hp).trans (sortOffers_perm l₂).symm
  exact List.eq_of_perm_of_sorted hperm
    (sortOffers_pairwise_lt hnd) (sortOffers_pairwise_lt hnd₂)

/-- C5: on batches whose `(anchor date or sentinel, tie-break key)`
sort keys are pairwise distinct, `assign_offer_numbers` is invariant
under permutation of the input: any two permuted inputs yield the
very same output list, hence the same mapping from tie-break key to
identifier. -/
theorem assign_offer_numbers_perm_invariant (l₁ l₂ : List Offer)
    (cpfx : String) (ny : Nat) (hp : List.Perm l₁ l₂)
    (hnd : (l₁.map sort_key).Nodup) :
    assign_offer_numbers l₁ cpfx ny = assign_offer_numbers l₂ cpfx ny := by
  show assignLoop cpfx ny (fun _ => 0) (sortOffers l₁)
    = assignLoop cpfx ny (fun _ => 0) (sortOffers l₂)
  rw [sortOffers_eq_of_perm hp hnd]

/-- C5 witness: the permuted two-element batches from the C1
counterexample have distinct sort keys and get identical outputs. -/
theorem assign_offer_numbers_perm_invariant_witness :
    List.Perm [march_offer, january_offer] [january_offer, march_offer]
      ∧ (([march_offer, january_offer].map sort_key).Nodup)
      ∧ assign_offer_numbers [march_offer, january_offer] "TK" 2026
        = assign_offer_numbers [january_offer, march_offer] "TK" 2026 :=
  ⟨by decide, by decide,
    assign_offer_numbers_perm_invariant _ _ "TK" 2026 (by decide) (by decide)⟩

/-! ## Distinctness of the assigned identifiers -/

/-- The `(year, seq)` pairs produced by the numbering loop, in output
order. -/
def assignPairs (ny : Nat) : (Nat → Nat) → List Offer → List (Nat × Nat)
  | _, [] => []
  | ctr, o :: rest =>
    let y := offerYear ny o
    (y, ctr y + 1) ::
      assignPairs ny (fun z => if z = y then ctr y + 1 else ctr z) rest

theorem assignLoop_map_number (cpfx : String) (ny : Nat)
    (ctr : Nat → Nat) (l : List Offer) :
    (assignLoop cpfx ny ctr l).map (fun o => o.offer_number)
      = (assignPairs ny ctr l).map (fun p => some (formatNumber cpfx p.1 p.2)) := by
  induction l generalizing ctr with
  | nil => rfl
  | cons o rest ih => simp [assignLoop, assignPairs, ih]

theorem assignPairs_lt (ny : Nat) (ctr : Nat → Nat) (l : List Offer) :
    ∀ p ∈ assignPairs ny ctr l, ctr p.1 < p.2 := by
  induction l generalizing ctr with
  | nil => intro p hp; simp [assignPairs] at hp
  | cons o rest ih =>
    intro p hp
    simp only [assignPairs, List.mem_cons] at hp
    rcases hp with rfl | hp
    · simp
    · have := ih _ p hp
      by_cases hy : p.1 = offerYear ny o
      · rw [hy] at this ⊢
        simp only [if_pos rfl, if_true, eq_self_iff_true] at this
        omega
      · simpa [if_neg hy] using this

theorem assignPairs_nodup (ny : Nat) (ctr : Nat → Nat) (l : List Offer) :
    (assignPairs ny ctr l).Nodup := by
  induction l generalizing ctr with
  | nil => simp [assignPairs]
  | cons o rest ih =>
    simp only [assignPairs, List.nodup_cons]
    refine ⟨?_, ih _⟩
    intro hmem
    have h := assignPairs_lt ny _ rest _ hmem
    simp at h

/-- The numeric value of a digit string read in base 10 (leading
zeros contribute nothing). -/
def digitsVal (xs : List Char) : Nat :=
  xs.foldl (fun a c => 10 * a + (c.toNat - 48)) 0

theorem digitChar_toNat {d : Nat} (h : d < 10) : (digitChar d).toNat = 48 + d := by
  interval_cases d <;> rfl

theorem digitChar_ne_dash (d : Nat) : digitChar d ≠ '-' := by
  unfold digitChar
  repeat' split
  all_goals decide

theorem digitsVal_append_digit (xs : List Char) (c : Char) :
    digitsVal (xs ++ [c]) = 10 * digitsVal xs + (c.toNat - 48) := by
  simp [digitsVal]

theorem natDigitsAux_val {fuel n : Nat} (h : n < fuel) :
    digitsVal (natDigitsAux fuel n) = n := by
  induction fuel generalizing n with
  | zero => omega
  | succ f ih =>
    rw [natDigitsAux]
    split
    · rename_i h10
      simp [digitsVal, digitChar_toNat h10]
    · rename_i h10
      rw [digitsVal_append_digit, ih (by omega), digitChar_toNat (by omega)]
      omega

theorem natDigits_val (n : Nat) : digitsVal (natDigits n) = n :=
  natDigitsAux_val (Nat.lt_succ_self n)

theorem natDigitsAux_ne_dash {fuel n : Nat} :
    ∀ c ∈ natDigitsAux fuel n, c ≠ '-' := by
  induction fuel generalizing n with
  | zero => intro c hc; simp [natDigitsAux] at hc
  | succ f ih =>
    intro c hc
    rw [natDigitsAux] at hc
    split at hc
    · simp only [List.mem_singleton] at hc
      exact hc ▸ digitChar_ne_dash _
    · rcases List.mem_append.mp hc with hc | hc
      · exact ih _ hc
      · simp only [List.mem_singleton] at hc
        exact hc ▸ digitChar_ne_dash _

theorem natDigits_ne_dash {n : Nat} : ∀ c ∈ natDigits n, c ≠ '-' :=
  natDigitsAux_ne_dash

theorem digitsVal_cons_zero (xs : List Char) :
    digitsVal ('0' :: xs) = digitsVal xs := rfl

theorem pad3_val (s : Nat) : digitsVal (pad3 s) = s := by
  unfold pad3
  split
  · rw [digitsVal_cons_zero, digitsVal_cons_zero, natDigits_val]
  · split
    · rw [digitsVal_cons_zero, natDigits_val]
    · exact natDigits_val s

theorem splitDash : ∀ (A₁ A₂ B₁ B₂ : List Char),
    (∀ c ∈ A₁, c ≠ '-') → (∀ c ∈ A₂, c ≠ '-') →
    A₁ ++ '-' :: B₁ = A₂ ++ '-' :: B₂ → A₁ = A₂ ∧ B₁ = B₂ := by
  intro A₁
  induction A₁ with
  | nil =>
    intro A₂ B₁ B₂ _ h₂ heq
    cases A₂ with
    | nil => simpa using heq
    | cons b A₂' =>
      exfalso
      simp only [List.nil_append, List.cons_append, List.cons.injEq] at heq
      exact h₂ b (List.mem_cons_self b A₂') heq.1.symm
  | cons a A₁' ih =>
    intro A₂ B₁ B₂ h₁ h₂ heq
    cases A₂ with
    | nil =>
      exfalso
      simp only [List.nil_append, List.cons_append, List.cons.injEq] at heq
      exact h₁ a (List.mem_cons_self a A₁') heq.1
    | cons b A₂' =>
      simp only [List.cons_append, List.cons.injEq] at heq
      obtain ⟨rfl, heq⟩ := heq
      have := ih A₂' B₁ B₂ (fun c hc => h₁ c (List.mem_cons_of_mem _ hc))
        (fun c hc => h₂ c (List.mem_cons_of_mem _ hc)) heq
      exact ⟨by rw [this.1], this.2⟩

theorem formatNumber_inj {cpfx : String} {y₁ s₁ y₂ s₂ : Nat}
    (h : formatNumber cpfx y₁ s₁ = formatNumber cpfx y₂ s₂) :
    y₁ = y₂ ∧ s₁ = s₂ := by
  unfold formatNumber at h
  have hdata : cpfx.data ++ '-' :: (natDigits y₁ ++ '-' :: pad3 s₁)
      = cpfx.data ++ '-' :: (natDigits y₂ ++ '-' :: pad3 s₂) :=
    congrArg String.data h
  have h' := List.append_inj_right hdata rfl
  rw [List.cons.injEq] at h'
  have h'' := splitDash _ _ _ _ (fun c hc => natDigits_ne_dash c hc)
    (fun c hc => natDigits_ne_dash c hc) h'.2
  constructor
  · have := congrArg digitsVal h''.1
    rwa [natDigits_val, natDigits_val] at this
  · have := congrArg digitsVal h''.2
    rwa [pad3_val, pad3_val] at this

/-- C6: within one run the identifiers assigned by
`assign_offer_numbers` are pairwise distinct: no two records of the
output carry the same `offer_number`. -/
theorem assign_offer_numbers_nodup (offers : List Offer) (cpfx : String)
    (ny : Nat) :
    ((assign_offer_numbers offers cpfx ny).map (fun o => o.offer_number)).Nodup := by
  have h := assignLoop_map_number cpfx ny (fun _ => 0) (sortOffers offers)
  show ((assignLoop cpfx ny (fun _ => 0) (sortOffers offers)).map
    (fun o => o.offer_number)).Nodup
  rw [h]
  refine List.Nodup.map ?_ (assignPairs_nodup ny _ _)
  intro p q hpq
  simp only [Option.some.injEq] at hpq
  have := formatNumber_inj hpq
  exact Prod.ext this.1 this.2

/-! ## Per-year numbering -/

theorem offerYear_withNumber (ny : Nat) (o : Offer) (s : String) :
    offerYear ny { o with offer_number := some s } = offerYear ny o := rfl


/-- The records of one year, in the order the loop outputs them, get
the consecutive sequence numbers starting right above the incoming
counter value. -/
theorem assignLoop_filter_year (cpfx : String) (ny Y : Nat)
    (ctr : Nat → Nat) (l : List Offer) :
    ((assignLoop cpfx ny ctr l).filter
        (fun o => offerYear ny o == Y)).map (fun o => o.offer_number)
      = (List.range ((l.filter (fun o => offerYear ny o == Y)).length)).map
          (fun i => some (formatNumber cpfx Y (ctr Y + 1 + i))) := by
  induction l generalizing ctr with
  | nil => rfl
  | cons o rest ih =>
    rw [assignLoop, List.filter_cons, List.filter_cons]
    by_cases hy : offerYear ny o = Y
    · simp only [offerYear_withNumber, hy, beq_self_eq_true, if_pos,
        List.map_cons, List.length_cons, List.range_succ_eq_map, List.map_map]
      rw [ih]
      simp only [eq_self_iff_true, if_true, if_pos rfl]
      congr 1
      apply List.map_congr_left
      intro i _
      simp only [Function.comp_apply]
      congr 2
      omega
    · have hbeq : (offerYear ny o == Y) = false := by
        simpa using hy
      simp only [offerYear_withNumber, hbeq, Bool.false_eq_true, if_false]
      rw [ih]
      simp only [if_neg (fun h => hy (Eq.symm h))]

/-- C7: in the output of `assign_offer_numbers`, the first record of
every calendar year (years being determined per record from sent
date, else creation date, else the current year) carries sequence
number 1, i.e. identifier `PREFIX-YEAR-001`: each year's counter is
independent and restarts at 1. -/
theorem assign_offer_numbers_year_starts_at_one (offers : List Offer)
    (cpfx : String) (ny Y : Nat) (o : Offer)
    (h : (assign_offer_numbers offers cpfx ny).find?
      (fun o => offerYear ny o == Y) = some o) :
    o.offer_number = some (formatNumber cpfx Y 1) := by
  have hunf : assign_offer_numbers offers cpfx ny
      = assignLoop cpfx ny (fun _ => 0) (sortOffers offers) := rfl
  have hfy := assignLoop_filter_year cpfx ny Y (fun _ => 0) (sortOffers offers)
  rw [← List.filter_head?] at h
  have h1 : (((assign_offer_numbers offers cpfx ny).filter
        (fun o => offerYear ny o == Y)).map (fun o => o.offer_number)).head?
      = some o.offer_number := by
    rw [List.head?_map, h]
    rfl
  rw [hunf, hfy] at h1
  rcases hk : ((sortOffers offers).filter (fun o => offerYear ny o == Y)).length
    with _ | k
  · rw [hk] at h1
    simp at h1
  · rw [hk, List.range_succ_eq_map] at h1
    simp only [List.map_cons, List.head?_cons, Option.some.injEq] at h1
    rw [← h1]

/-- Four or more digits are used for sequence numbers from 1000 on:
the zero-padding silently widens rather than truncating or raising. -/
theorem natDigitsAux_length {fuel n k : Nat} (hf : n < fuel) (hk : 10 ^ k ≤ n) :
    k + 1 ≤ (natDigitsAux fuel n).length := by
  induction fuel generalizing n k with
  | zero => omega
  | succ f ih =>
    rw [natDigitsAux]
    split
    · rename_i h10
      have : k = 0 := by
        by_contra hne
        have h2 : 10 ≤ 10 ^ k := by
          calc 10 = 10 ^ 1 := by norm_num
          _ ≤ 10 ^ k := Nat.pow_le_pow_right (by omega) (by omega)
        omega
      simp [this]
    · rename_i h10
      simp only [List.length_append, List.length_singleton]
      cases k with
      | zero => omega
      | succ k' =>
        have hdiv : 10 ^ k' ≤ n / 10 := by
          rw [Nat.le_div_iff_mul_le (by omega)]
          calc 10 ^ k' * 10 = 10 ^ (k' + 1) := by ring
          _ ≤ n := hk
        have := ih (n := n / 10) (k := k') (by omega) hdiv
        omega

theorem pad3_length_ge_four {s : Nat} (h : 1000 ≤ s) : 4 ≤ (pad3 s).length := by
  unfold pad3
  rw [if_neg (by omega), if_neg (by omega)]
  have : 10 ^ 3 ≤ s := by norm_num; omega
  exact natDigitsAux_length (Nat.lt_succ_self s) this

/-- C8: when more than 999 records fall in one calendar year,
`assign_offer_numbers` still completes normally (it numbers every
record of the batch), and the 1000th record of that year receives
sequence number 1000, whose zero-padded part has more than 3
digits. -/
theorem assign_offer_numbers_beyond_999 (offers : List Offer) (cpfx : String)
    (ny Y : Nat)
    (h : 999 < (offers.filter (fun o => offerYear ny o == Y)).length) :
    (assign_offer_numbers offers cpfx ny).length = offers.length
    ∧ (((assign_offer_numbers offers cpfx ny).filter
        (fun o => offerYear ny o == Y)).map (fun o => o.offer_number))[999]?
      = some (some (formatNumber cpfx Y 1000))
    ∧ (∀ s, 1000 ≤ s → 4 ≤ (pad3 s).length) := by
  refine ⟨?_, ?_, fun s hs => pad3_length_ge_four hs⟩
  · have h1 : (assign_offer_numbers offers cpfx ny).length
        = (sortOffers offers).length :=
      assignLoop_length cpfx ny (fun _ => 0) (sortOffers offers)
    rw [h1, (sortOffers_perm offers).length_eq]
  · have hunf : assign_offer_numbers offers cpfx ny
        = assignLoop cpfx ny (fun _ => 0) (sortOffers offers) := rfl
    have hfy := assignLoop_filter_year cpfx ny Y (fun _ => 0) (sortOffers offers)
    have hlen : ((sortOffers offers).filter (fun o => offerYear ny o == Y)).length
        = (offers.filter (fun o => offerYear ny o == Y)).length :=
      ((sortOffers_perm offers).filter _).length_eq
    rw [hunf, hfy, List.getElem?_map, List.getElem?_range (by omega)]
    norm_num

/-- Concrete two-year batch used by witnesses. -/
def y2023_offer : Offer := ⟨"a", some ⟨2023, 5, 1, 0, 0, 0⟩, none, "r1", none⟩

def y2024_offer : Offer := ⟨"b", some ⟨2024, 6, 2, 0, 0, 0⟩, none, "r2", none⟩

/-- C7 witness: a batch with records dated 2023 and 2024; each year's
first record gets sequence number 1. -/
theorem assign_offer_numbers_year_starts_at_one_witness :
    ((assign_offer_numbers [y2023_offer, y2024_offer] "TK" 2026).find?
        (fun o => offerYear 2026 o == 2023)
      = some { y2023_offer with offer_number := some "TK-2023-001" })
    ∧ ({ y2023_offer with offer_number := some "TK-2023-001" } : Offer).offer_number
      = some (formatNumber "TK" 2023 1)
    ∧ ((assign_offer_numbers [y2023_offer, y2024_offer] "TK" 2026).find?
        (fun o => offerYear 2026 o == 2024)
      = some { y2024_offer with offer_number := some "TK-2024-001" })
    ∧ ({ y2024_offer with offer_number := some "TK-2024-001" } : Offer).offer_number
      = some (formatNumber "TK" 2024 1) :=
  ⟨by decide,
   assign_offer_numbers_year_starts_at_one [y2023_offer, y2024_offer]
     "TK" 2026 2023 _ (by decide),
   by decide,
   assign_offer_numbers_year_starts_at_one [y2023_offer, y2024_offer]
     "TK" 2026 2024 _ (by decide)⟩

/-- C8 witness: a batch of 1000 records all dated 2024; the function
completes and the 1000th record of the year carries sequence part
`1000`. -/
theorem assign_offer_numbers_beyond_999_witness :
    999 < ((List.replicate 1000 y2024_offer).filter
        (fun o => offerYear 2026 o == 2024)).length
    ∧ ((assign_offer_numbers (List.replicate 1000 y2024_offer) "TK" 2026).length
        = (List.replicate 1000 y2024_offer).length
      ∧ (((assign_offer_numbers (List.replicate 1000 y2024_offer) "TK" 2026).filter
          (fun o => offerYear 2026 o == 2024)).map (fun o => o.offer_number))[999]?
        = some (some (formatNumber "TK" 2024 1000))
      ∧ (∀ s, 1000 ≤ s → 4 ≤ (pad3 s).length)) := by
  have hyp : 999 < ((List.replicate 1000 y2024_offer).filter
      (fun o => offerYear 2026 o == 2024)).length := by
    rw [List.filter_replicate_of_pos (by decide), List.length_replicate]
    omega
  exact ⟨hyp, assign_offer_numbers_beyond_999 _ "TK" 2026 2024 hyp⟩

/-! ## The customer cache -/

theorem load_customer_cache_go (rows : List (String × String))
    (cache : String → Option (String × String)) (key : String) :
    rows.foldl
      (fun cache row k =>
        if k = normalize_customer_name row.2 then some (row.1, row.2) else cache k)
      cache key
      = ((rows.reverse.find?
          (fun r => normalize_customer_name r.2 == key)).or (cache key)) := by
  induction rows generalizing cache with
  | nil => simp
  | cons r rest ih =>
    simp only [List.foldl_cons, List.reverse_cons, List.find?_append, ih]
    by_cases hk : key = normalize_customer_name r.2
    · simp [List.find?_cons, hk, Option.or_assoc]
    · have : (normalize_customer_name r.2 == key) = false := by
        simp [Ne.symm hk]
      simp [List.find?_cons, this, hk]

/-- C9: the cache built by `load_customer_cache` is last-writer-wins:
for every store contents and every normalized key, the cached entry is
exactly the `(id, name)` of the LAST row in load order whose name
normalizes to that key (and absent if there is no such row).  In
particular, when several rows normalize to the same key, the one
occurring last in the sequence wins. -/
theorem load_customer_cache_last_writer (rows : List (String × String))
    (key : String) :
    load_customer_cache rows key
      = rows.reverse.find? (fun r => normalize_customer_name r.2 == key) := by
  unfold load_customer_cache
  rw [load_customer_cache_go]
  simp

/-! ## Status mapping -/

theorem lookup_mem_snd {β : Type} {k : String} {v : β} :
    ∀ {l : List (String × β)}, l.lookup k = some v → v ∈ l.map Prod.snd := by
  intro l
  induction l with
  | nil => intro h; simp [List.lookup] at h
  | cons p rest ih =>
    obtain ⟨pk, pv⟩ := p
    intro h
    rw [List.lookup] at h
    rcases hbeq : (k == pk) with _ | _
    · rw [hbeq] at h
      exact List.mem_cons_of_mem _ (ih h)
    · rw [hbeq] at h
      simp only [Option.some.injEq] at h
      subst h
      exact List.mem_cons_self _ _

/-- C10: `get_status_mapping` is total and never leaks the internal
marker: for every status string and optional sent date the returned
phase is one of the six public phases, `"_needs_sent_date"` never
escapes, and any status not in `STATUS_MAPPING` is classified purely
by the sent date (`"sent"`/`"active"` when present,
`"in_progress"`/`"active"` otherwise). -/
theorem get_status_mapping_total (excel_status : String)
    (sent_date : Option DateTime) :
    ((get_status_mapping excel_status sent_date).1
        ∈ ["_skip", "in_progress", "sent", "order", "completed", "lost"])
    ∧ (get_status_mapping excel_status sent_date).1 ≠ "_needs_sent_date"
    ∧ (STATUS_MAPPING.lookup (clean_string excel_status) = none →
        get_status_mapping excel_status sent_date
          = (if sent_date.isSome then "sent" else "in_progress", "active")) := by
  unfold get_status_mapping
  rcases hl : STATUS_MAPPING.lookup (clean_string excel_status) with _ | v
  · simp only [hl, Option.getD_none]
    refine ⟨?_, ?_, fun _ => rfl⟩
    · by_cases hs : sent_date.isSome <;> simp [hs]
    · by_cases hs : sent_date.isSome <;> simp [hs]
  · have hv : v ∈ STATUS_MAPPING.map Prod.snd := lookup_mem_snd hl
    simp only [hl, Option.getD_some]
    simp only [STATUS_MAPPING, List.map_cons, List.map_nil, List.mem_cons,
      List.not_mem_nil, or_false] at hv
    refine ⟨?_, ?_, fun hnone => (Option.some_ne_none v hnone).elim⟩
    · rcases hv with rfl | rfl | rfl | rfl | rfl | rfl | rfl
        <;> by_cases hs : sent_date.isSome <;> simp [hs]
    · rcases hv with rfl | rfl | rfl | rfl | rfl | rfl | rfl
        <;> by_cases hs : sent_date.isSome <;> simp [hs]

/-- C10 witness: an unmapped status string is classified by the sent
date alone, and a mapped one (`"Tapt"`) keeps its table phase. -/
theorem get_status_mapping_total_witness :
    STATUS_MAPPING.lookup (clean_string "Budget2024") = none
    ∧ get_status_mapping "Budget2024" none = ("in_progress", "active")
    ∧ get_status_mapping "Budget2024" (some ⟨2024, 1, 1, 0, 0, 0⟩)
        = ("sent", "active")
    ∧ (get_status_mapping "Tapt" none).1 ≠ "_needs_sent_date" := by
  refine ⟨by decide, ?_, ?_, (get_status_mapping_total "Tapt" none).2.1⟩
  · have h := (get_status_mapping_total "Budget2024" none).2.2 (by decide)
    simpa using h
  · have h := (get_status_mapping_total "Budget2024"
      (some ⟨2024, 1, 1, 0, 0, 0⟩)).2.2 (by decide)
    simpa using h

/-! ## The fuzzy-scoring path and the alias table -/

/-- C4 fails as stated: the fuzzy-scoring path
(`similarity_score`/`find_best_match`) applies no alias substitution,
so alias key `"nordbygg"` scores 0 against its mapped canonical
entity `"norbygg"` (not equal, not a substring, no common word) and
no match at all is returned — not the entity with score 1.0. -/
theorem find_best_match_alias_counterexample :
    ("nordbygg", "norbygg") ∈ CUSTOMER_ALIASES
    ∧ similarity_score "nordbygg" "norbygg" = 0
    ∧ find_best_match "nordbygg" [("1", "norbygg", "")] = (none, 0) := by
  refine ⟨by decide, ?_, ?_⟩
  · simp +decide [similarity_score]
  · simp +decide [find_best_match, similarity_score, List.foldl]

/-- C4 amended: the fuzzy path sees only suffix-stripped
normalization, so the alias round-trip holds exactly for the alias
keys whose `normalize_name` form coincides with that of the mapped
value: for those, resolving the key against a store holding the
mapped entity returns that entity with score 1.0. -/
theorem find_best_match_alias (k v id org : String)
    (_hmem : (k, v) ∈ CUSTOMER_ALIASES)
    (hnorm : normalize_name k = normalize_name v) :
    find_best_match k [(id, v, org)] = (some (id, v, org), 1) := by
  have hscore : similarity_score k v = 1 := by
    unfold similarity_score
    simp [hnorm]
  unfold find_best_match
  simp [hscore]

/-- C4 witness: the alias key `"hansen & dahl"` maps to itself, so
its fuzzy resolution against the mapped entity scores 1.0. -/
theorem find_best_match_alias_witness :
    ("hansen & dahl", "hansen & dahl") ∈ CUSTOMER_ALIASES
    ∧ normalize_name "hansen & dahl" = normalize_name "hansen & dahl"
    ∧ find_best_match "hansen & dahl" [("42", "hansen & dahl", "999")]
        = (some ("42", "hansen & dahl", "999"), 1) :=
  ⟨by decide, rfl, find_best_match_alias _ _ _ _ (by decide) rfl⟩

/-! ## Whole-word suffix stripping -/

/-- C3 fails on its first example: `"nordbygg as"` is itself an alias
key (a curated typo correction mapping to `"norbygg"`), so
normalization returns `"norbygg"`, not `"nordbygg"`. -/
theorem normalize_nordbygg_counterexample :
    normalize_customer_name "nordbygg as" ≠ "nordbygg" := by decide

/-- C3 amended: a legal-entity suffix is only stripped as a whole
trailing token preceded by whitespace — a suffix word at the end of a
string whose preceding character is not whitespace is never stripped
— and on the concrete examples `normalize_customer_name "nordbygg
as"` returns the aliased canonical `"norbygg"` while
`normalize_customer_name "hansa"` is unchanged (no mid-word
stripping). -/
theorem normalize_whole_word_suffix :
    (∀ (pre : List Char) (c : Char) (w : List Char),
      w ∈ SUFFIX_WORDS → isWS c = false →
      stripSuffix (pre ++ c :: w) = pre ++ c :: w)
    ∧ normalize_customer_name "nordbygg as" = "norbygg"
    ∧ normalize_customer_name "hansa" = "hansa" := by
  refine ⟨?_, by decide, by decide⟩
  intro pre c w hw hc
  simp only [SUFFIX_WORDS, List.mem_cons, List.not_mem_nil, or_false] at hw
  rcases hw with rfl | rfl | rfl | rfl | rfl <;>
    simp [stripSuffix, trySuffixRev, SUFFIX_WORDS, List.findSome?,
      List.isPrefixOf, List.reverse_append, hc]

/-- C3 witness: instantiating the whole-word condition on
`"hansa"` (which ends in the suffix word `"sa"` preceded by the
non-whitespace letter `n`): nothing is stripped. -/
theorem normalize_whole_word_suffix_witness :
    (['s', 'a'] : List Char) ∈ SUFFIX_WORDS
    ∧ isWS 'n' = false
    ∧ stripSuffix (['h', 'a'] ++ 'n' :: ['s', 'a'])
      = ['h', 'a'] ++ 'n' :: ['s', 'a'] :=
  ⟨by decide, by decide,
    normalize_whole_word_suffix.1 ['h', 'a'] 'n' ['s', 'a'] (by decide) (by decide)⟩

/-! ## Idempotence of customer-name normalization -/

/-- C2 fails as stated: the suffix regex strips only ONE trailing
suffix token per pass, so a name ending in two suffix tokens is not a
fixed point after one normalization: `normalize("x as as") = "x as"`
but normalizing again gives `"x"`. -/
theorem normalize_customer_name_not_idempotent :
    normalize_customer_name (normalize_customer_name "x as as")
      ≠ normalize_customer_name "x as as" := by decide

/-- No character changes under lowercasing. -/
def noUpper (xs : List Char) : Bool := xs.all fun c => pyLowerChar c == c

/-- Every whitespace character is a plain space. -/
def wsOnlySpace (xs : List Char) : Bool := xs.all fun c => !isWS c || c == ' '

/-- No two adjacent whitespace characters. -/
def noAdjWS : List Char → Bool
  | a :: b :: rest => (!(isWS a && isWS b)) && noAdjWS (b :: rest)
  | _ => true

/-- The first character, if any, is not whitespace. -/
def headNotWS : List Char → Bool
  | [] => true
  | c :: _ => !isWS c

/-- The last character, if any, is not whitespace. -/
def lastNotWS : List Char → Bool
  | [] => true
  | [c] => !isWS c
  | _ :: b :: rest => lastNotWS (b :: rest)

/-- A string already in the form produced by the
lowercase-strip-collapse head of the normalization pipeline. -/
def cleanStr (xs : List Char) : Bool :=
  noUpper xs && wsOnlySpace xs && noAdjWS xs && headNotWS xs && lastNotWS xs

theorem noUpper_fixed {xs : List Char} (h : noUpper xs = true) : pyLower xs = xs := by
  induction xs with
  | nil => rfl
  | cons c rest ih =>
    simp only [noUpper, List.all_cons, Bool.and_eq_true, beq_iff_eq] at h
    simp only [pyLower, List.map_cons]
    rw [h.1]
    exact congrArg (c :: ·) (ih h.2)

theorem dropWhile_of_headNotWS {xs : List Char} (h : headNotWS xs = true) :
    xs.dropWhile isWS = xs := by
  cases xs with
  | nil => rfl
  | cons c rest =>
    simp only [headNotWS, Bool.not_eq_true'] at h
    simp [List.dropWhile, h]

theorem headNotWS_append {xs ys : List Char} (h : xs ≠ []) :
    headNotWS (xs ++ ys) = headNotWS xs := by
  cases xs with
  | nil => exact absurd rfl h
  | cons c rest => rfl

theorem lastNotWS_eq_headNotWS_reverse (xs : List Char) :
    lastNotWS xs = headNotWS xs.reverse := by
  induction xs with
  | nil => rfl
  | cons a rest ih =>
    cases rest with
    | nil => rfl
    | cons b t =>
      rw [show lastNotWS (a :: b :: t) = lastNotWS (b :: t) from rfl, ih]
      rw [List.reverse_cons (a := a), headNotWS_append (by simp)]

theorem pyStrip_of_clean {xs : List Char} (hh : headNotWS xs = true)
    (hl : lastNotWS xs = true) : pyStrip xs = xs := by
  unfold pyStrip
  rw [dropWhile_of_headNotWS hh]
  rw [dropWhile_of_headNotWS (by rw [← lastNotWS_eq_headNotWS_reverse]; exact hl)]
  exact List.reverse_reverse xs

theorem collapseWS_of_clean {xs : List Char} (hs : wsOnlySpace xs = true)
    (ha : noAdjWS xs = true) : collapseWS xs = xs := by
  induction xs with
  | nil => rfl
  | cons a rest ih =>
    cases rest with
    | nil =>
      simp only [wsOnlySpace, List.all_cons, List.all_nil, Bool.and_true,
        Bool.or_eq_true, Bool.not_eq_true', beq_iff_eq] at hs
      rcases hs with hs | hs
      · simp [collapseWS, hs]
      · simp [collapseWS, hs]
    | cons b t =>
      simp only [noAdjWS, Bool.and_eq_true, Bool.not_eq_true',
        Bool.and_eq_false_iff] at ha
      have hguard : (isWS a && isWS b) = false := by
        rcases ha.1 with h | h <;> simp [h]
      simp only [collapseWS, hguard, Bool.false_eq_true, if_false]
      have hrest : collapseWS (b :: t) = b :: t := by
        apply ih
        · simp only [wsOnlySpace, List.all_cons, Bool.and_eq_true] at hs ⊢
          exact hs.2
        · exact ha.2
      rw [hrest]
      by_cases hwa : isWS a = true
      · have : a = ' ' := by
          simp only [wsOnlySpace, List.all_cons, Bool.and_eq_true,
            Bool.or_eq_true, Bool.not_eq_true', beq_iff_eq] at hs
          rcases hs.1 with h | h
          · rw [h] at hwa; cases hwa
          · exact h
        simp [hwa, this]
      · simp only [Bool.not_eq_true] at hwa
        simp [hwa]

theorem toNat_ofNat_valid {n : Nat} (h : n < 55296) : (Char.ofNat n).toNat = n := by
  rw [Char.ofNat, dif_pos (Or.inl h)]
  rfl

theorem pyLowerChar_idem (c : Char) : pyLowerChar (pyLowerChar c) = pyLowerChar c := by
  by_cases h1 : 65 ≤ c.toNat ∧ c.toNat ≤ 90
  · have hc : pyLowerChar c = Char.ofNat (c.toNat + 32) := by
      unfold pyLowerChar; rw [if_pos h1]
    have ht : (Char.ofNat (c.toNat + 32)).toNat = c.toNat + 32 :=
      toNat_ofNat_valid (by omega)
    rw [hc]
    unfold pyLowerChar
    rw [if_neg (by rw [ht]; omega), if_neg (by rw [ht]; omega)]
  · by_cases h2 : 192 ≤ c.toNat ∧ c.toNat ≤ 222 ∧ c.toNat ≠ 215
    · have hc : pyLowerChar c = Char.ofNat (c.toNat + 32) := by
        unfold pyLowerChar; rw [if_neg h1, if_pos h2]
      have ht : (Char.ofNat (c.toNat + 32)).toNat = c.toNat + 32 :=
        toNat_ofNat_valid (by omega)
      rw [hc]
      unfold pyLowerChar
      rw [if_neg (by rw [ht]; omega), if_neg (by rw [ht]; omega)]
    · have hc : pyLowerChar c = c := by
        unfold pyLowerChar; rw [if_neg h1, if_neg h2]
      rw [hc, hc]

theorem noUpper_pyLower (xs : List Char) : noUpper (pyLower xs) = true := by
  simp only [noUpper, pyLower, List.all_eq_true, List.mem_map, beq_iff_eq]
  rintro c ⟨d, _, rfl⟩
  exact pyLowerChar_idem d

theorem all_of_subset {p : Char → Bool} {xs ys : List Char}
    (hsub : ∀ c, c ∈ ys → c ∈ xs) (h : xs.all p = true) : ys.all p = true := by
  simp only [List.all_eq_true] at *
  exact fun c hc => h c (hsub c hc)

theorem mem_pyStrip {c : Char} {xs : List Char} (h : c ∈ pyStrip xs) : c ∈ xs := by
  unfold pyStrip at h
  rw [List.mem_reverse] at h
  have h1 := (List.dropWhile_suffix (l := (xs.dropWhile isWS).reverse) isWS).sublist.subset h
  rw [List.mem_reverse] at h1
  exact (List.dropWhile_suffix isWS).sublist.subset h1

theorem mem_collapseWS {c : Char} : ∀ {xs : List Char},
    c ∈ collapseWS xs → c ∈ xs ∨ c = ' ' := by
  intro xs
  induction xs with
  | nil => intro h; simp [collapseWS] at h
  | cons a rest ih =>
    intro h
    cases rest with
    | nil =>
      simp only [collapseWS, List.mem_singleton] at h
      by_cases hw : isWS a = true
      · rw [if_pos hw] at h
        exact Or.inr h
      · rw [if_neg hw] at h
        exact Or.inl (h ▸ List.mem_cons_self a [])
    | cons b t =>
      simp only [collapseWS] at h
      split at h
      · rcases ih h with hm | hm
        · exact Or.inl (List.mem_cons_of_mem a hm)
        · exact Or.inr hm
      · rcases List.mem_cons.mp h with rfl | hm
        · by_cases hw : isWS a = true
          · rw [if_pos hw]
            exact Or.inr rfl
          · rw [if_neg hw]
            exact Or.inl (List.mem_cons_self a _)
        · rcases ih hm with hm' | hm'
          · exact Or.inl (List.mem_cons_of_mem a hm')
          · exact Or.inr hm'

theorem headNotWS_dropWhile_self (l : List Char) :
    headNotWS (l.dropWhile isWS) = true := by
  induction l with
  | nil => rfl
  | cons c t ih =>
    rw [List.dropWhile_cons]
    split
    · exact ih
    · rename_i h
      simp only [headNotWS, Bool.not_eq_true']
      exact Bool.not_eq_true _ ▸ (by simpa using h)

theorem lastNotWS_dropWhile {l : List Char} {p : Char → Bool}
    (h : lastNotWS l = true) : lastNotWS (l.dropWhile p) = true := by
  induction l with
  | nil => exact h
  | cons c t ih =>
    rw [List.dropWhile_cons]
    split
    · apply ih
      cases t with
      | nil => rfl
      | cons b u => exact h
    · exact h

theorem pyStrip_headNotWS (xs : List Char) : headNotWS (pyStrip xs) = true := by
  unfold pyStrip
  rw [← lastNotWS_eq_headNotWS_reverse]
  apply lastNotWS_dropWhile
  rw [lastNotWS_eq_headNotWS_reverse, List.reverse_reverse]
  exact headNotWS_dropWhile_self xs

theorem pyStrip_lastNotWS (xs : List Char) : lastNotWS (pyStrip xs) = true := by
  unfold pyStrip
  rw [lastNotWS_eq_headNotWS_reverse, List.reverse_reverse]
  exact headNotWS_dropWhile_self _

theorem collapseWS_ne_nil : ∀ {xs : List Char}, xs ≠ [] → collapseWS xs ≠ [] := by
  intro xs
  induction xs with
  | nil => intro h; exact absurd rfl h
  | cons a rest ih =>
    intro _
    cases rest with
    | nil => simp [collapseWS]
    | cons b t =>
      simp only [collapseWS]
      split
      · exact ih (by simp)
      · simp

theorem headNotWS_collapseWS : ∀ {xs : List Char},
    headNotWS xs = true → headNotWS (collapseWS xs) = true := by
  intro xs
  induction xs with
  | nil => intro h; exact h
  | cons a rest ih =>
    intro h
    simp only [headNotWS, Bool.not_eq_true'] at h
    cases rest with
    | nil => simp [collapseWS, headNotWS, h]
    | cons b t =>
      simp only [collapseWS, h, Bool.false_and, Bool.false_eq_true, if_false]
      simp [headNotWS, h]

theorem lastNotWS_collapseWS : ∀ {xs : List Char},
    lastNotWS xs = true → lastNotWS (collapseWS xs) = true := by
  intro xs
  induction xs with
  | nil => intro h; exact h
  | cons a rest ih =>
    intro h
    cases rest with
    | nil =>
      simp only [lastNotWS, Bool.not_eq_true'] at h
      simp [collapseWS, lastNotWS, h]
    | cons b t =>
      have hl : lastNotWS (b :: t) = true := h
      simp only [collapseWS]
      split
      · exact ih hl
      · rcases hcol : collapseWS (b :: t) with _ | ⟨y, ys⟩
        · exact absurd hcol (collapseWS_ne_nil (by simp))
        · have hres := ih hl
          rw [hcol] at hres
          exact hres

theorem noAdjWS_collapseWS : ∀ {xs : List Char}, noAdjWS (collapseWS xs) = true := by
  intro xs
  induction xs with
  | nil => rfl
  | cons a rest ih =>
    cases rest with
    | nil => simp [collapseWS, noAdjWS]
    | cons b t =>
      simp only [collapseWS]
      split
      · exact ih
      · rename_i hguard
        rcases hcol : collapseWS (b :: t) with _ | ⟨y, ys⟩
        · rfl
        · have h2 : noAdjWS (y :: ys) = true := by rw [← hcol]; exact ih
          by_cases hwa : isWS a = true
          · have hb : isWS b = false := by
              cases hwsb : isWS b
              · rfl
              · rw [hwa, hwsb] at hguard
                simp at hguard
            have hy : headNotWS (collapseWS (b :: t)) = true :=
              headNotWS_collapseWS (by simp [headNotWS, hb])
            rw [hcol] at hy
            simp only [headNotWS, Bool.not_eq_true'] at hy
            simp [noAdjWS, hwa, hy, h2]
          · simp only [Bool.not_eq_true] at hwa
            simp [noAdjWS, hwa, h2]

theorem wsOnlySpace_collapseWS : ∀ {xs : List Char},
    wsOnlySpace (collapseWS xs) = true := by
  intro xs
  induction xs with
  | nil => rfl
  | cons a rest ih =>
    cases rest with
    | nil =>
      by_cases h : isWS a = true <;> simp [collapseWS, wsOnlySpace, h]
    | cons b t =>
      simp only [collapseWS]
      split
      · exact ih
      · have hrest : wsOnlySpace (collapseWS (b :: t)) = true := ih
        by_cases h : isWS a = true
        · simp only [h, if_true]
          simp only [wsOnlySpace, List.all_cons, Bool.and_eq_true] at hrest ⊢
          exact ⟨by decide, hrest⟩
        · simp only [h, Bool.false_eq_true, if_false]
          simp only [wsOnlySpace, List.all_cons, Bool.and_eq_true] at hrest ⊢
          refine ⟨?_, hrest⟩
          simp [h]

theorem noUpper_collapseWS {xs : List Char} (h : noUpper xs = true) :
    noUpper (collapseWS xs) = true := by
  simp only [noUpper, List.all_eq_true, beq_iff_eq] at h ⊢
  intro c hc
  rcases mem_collapseWS hc with hmem | rfl
  · exact h c hmem
  · decide

theorem pipeline_clean (xs : List Char) :
    cleanStr (collapseWS (pyStrip (pyLower xs))) = true := by
  have hU1 : noUpper (pyStrip (pyLower xs)) = true :=
    all_of_subset (fun c hc => mem_pyStrip hc) (noUpper_pyLower xs)
  simp only [cleanStr, Bool.and_eq_true]
  exact ⟨⟨⟨⟨noUpper_collapseWS hU1, wsOnlySpace_collapseWS⟩, noAdjWS_collapseWS⟩,
    headNotWS_collapseWS (pyStrip_headNotWS _)⟩,
    lastNotWS_collapseWS (pyStrip_lastNotWS _)⟩

theorem clean_fixed {xs : List Char} (h : cleanStr xs = true) :
    collapseWS (pyStrip (pyLower xs)) = xs := by
  simp only [cleanStr, Bool.and_eq_true] at h
  obtain ⟨⟨⟨⟨hU, hW⟩, hA⟩, hH⟩, hL⟩ := h
  rw [noUpper_fixed hU, pyStrip_of_clean hH hL, collapseWS_of_clean hW hA]

theorem noAdjWS_append_left : ∀ {xs zs : List Char},
    noAdjWS (xs ++ zs) = true → noAdjWS xs = true := by
  intro xs zs
  induction xs with
  | nil => intro _; rfl
  | cons a t ih =>
    intro h
    cases t with
    | nil => rfl
    | cons b u =>
      simp only [List.cons_append] at h
      simp only [noAdjWS, Bool.and_eq_true] at h ⊢
      exact ⟨h.1, ih (by simpa using h.2)⟩

theorem headNotWS_mono {xs ys : List Char} (hp : xs <+: ys)
    (h : headNotWS ys = true) : headNotWS xs = true := by
  cases xs with
  | nil => rfl
  | cons a t =>
    obtain ⟨zs, rfl⟩ := hp
    exact h

theorem stripSuffix_clean {s : List Char} (h : cleanStr s = true) :
    cleanStr (stripSuffix s) = true := by
  unfold stripSuffix
  rcases htry : trySuffixRev s.reverse with _ | r
  · exact h
  · obtain ⟨w, _, hfw⟩ := List.exists_of_findSome?_eq_some htry
    by_cases hpre : w.reverse.isPrefixOf s.reverse
    case neg => rw [if_neg hpre] at hfw; cases hfw
    rw [if_pos hpre] at hfw
    rcases hdrop : s.reverse.drop w.length with _ | ⟨c, rest⟩
    · rw [hdrop] at hfw; cases hfw
    · rw [hdrop] at hfw
      have hfw' : (if isWS c = true then some (rest.dropWhile isWS) else none)
          = some r := hfw
      by_cases hc : isWS c = true
      case neg => rw [if_neg hc] at hfw'; cases hfw'
      rw [if_pos hc] at hfw'
      have hr : rest.dropWhile isWS = r := Option.some.inj hfw'
      have hsuffix : r <:+ s.reverse := by
        rw [← hr]
        refine (List.dropWhile_suffix isWS).trans ?_
        have h1 : c :: rest <:+ s.reverse := hdrop ▸ List.drop_suffix w.length s.reverse
        exact (List.suffix_cons c rest).trans h1
      have hpfx : r.reverse <+: s := by
        apply List.reverse_suffix.mp
        rwa [List.reverse_reverse]
      simp only [cleanStr, Bool.and_eq_true] at h ⊢
      obtain ⟨⟨⟨⟨hU, hW⟩, hA⟩, hH⟩, _⟩ := h
      refine ⟨⟨⟨⟨?_, ?_⟩, ?_⟩, ?_⟩, ?_⟩
      · exact all_of_subset (fun d hd => hpfx.sublist.subset hd) hU
      · exact all_of_subset (fun d hd => hpfx.sublist.subset hd) hW
      · obtain ⟨zs, hzs⟩ := hpfx
        exact noAdjWS_append_left (hzs ▸ hA)
      · exact headNotWS_mono hpfx hH
      · rw [lastNotWS_eq_headNotWS_reverse, List.reverse_reverse, ← hr]
        exact headNotWS_dropWhile_self _

/-- Every canonical value of the alias table is already in normalized
(lowercase, stripped, collapsed) form. -/
theorem alias_values_clean : (CUSTOMER_ALIASES.map Prod.snd).all
    (fun v => cleanStr v.data) = true := by decide

/-- Looking a canonical value up in the alias table again changes
nothing (the one value that is also a key, `"hansen & dahl"`, maps to
itself). -/
theorem alias_values_fixed : (CUSTOMER_ALIASES.map Prod.snd).all
    (fun v => aliasLookup v == v) = true := by decide

theorem cleanStr_aliasLookup {s : String} (h : cleanStr s.data = true) :
    cleanStr (aliasLookup s).data = true := by
  unfold aliasLookup
  rcases hl : CUSTOMER_ALIASES.lookup s with _ | v
  · exact h
  · have hv : v ∈ CUSTOMER_ALIASES.map Prod.snd := lookup_mem_snd hl
    have hall := alias_values_clean
    simp only [List.all_eq_true] at hall
    exact hall v hv

theorem aliasLookup_idem (s : String) :
    aliasLookup (aliasLookup s) = aliasLookup s := by
  rcases h : CUSTOMER_ALIASES.lookup s with _ | v
  · have hs : aliasLookup s = s := by unfold aliasLookup; rw [h]
    rw [hs, hs]
  · have hs : aliasLookup s = v := by unfold aliasLookup; rw [h]
    rw [hs]
    have hall := alias_values_fixed
    simp only [List.all_eq_true, beq_iff_eq] at hall
    exact hall v (lookup_mem_snd h)

theorem string_mk_data (s : String) : String.mk s.data = s := rfl

theorem aliasLookup_normalize (n : String) :
    aliasLookup (normalize_customer_name n) = normalize_customer_name n := by
  by_cases h : n = ""
  · subst h
    decide
  · have hrw : normalize_customer_name n
        = aliasLookup (String.mk (stripSuffix (aliasLookup
          (String.mk (collapseWS (pyStrip (pyLower n.data))))).data)) := by
      unfold normalize_customer_name
      rw [if_neg h]
    rw [hrw, aliasLookup_idem]

theorem normalize_customer_name_clean (n : String) :
    cleanStr (normalize_customer_name n).data = true := by
  by_cases h : n = ""
  · subst h
    decide
  · unfold normalize_customer_name
    rw [if_neg h]
    apply cleanStr_aliasLookup
    show cleanStr (stripSuffix (aliasLookup
      (String.mk (collapseWS (pyStrip (pyLower n.data))))).data) = true
    apply stripSuffix_clean
    apply cleanStr_aliasLookup
    show cleanStr (collapseWS (pyStrip (pyLower n.data))) = true
    exact pipeline_clean n.data

/-- C2 amended: `normalize_customer_name` is idempotent on every
input whose normalized form carries no further whitespace-preceded
trailing legal-entity suffix (the single stripping pass is the only
source of non-idempotence; the alias table is closed under a second
pass and the lowercase-strip-collapse head is idempotent). -/
theorem normalize_customer_name_idempotent (n : String)
    (h : stripSuffix (normalize_customer_name n).data
      = (normalize_customer_name n).data) :
    normalize_customer_name (normalize_customer_name n)
      = normalize_customer_name n := by
  set m := normalize_customer_name n with hm
  by_cases hem : m = ""
  · rw [hem]
    rfl
  · have hclean : cleanStr m.data = true := normalize_customer_name_clean n
    have hfix : collapseWS (pyStrip (pyLower m.data)) = m.data := clean_fixed hclean
    have halias : aliasLookup m = m := aliasLookup_normalize n
    unfold normalize_customer_name
    rw [if_neg hem, hfix, string_mk_data]
    show aliasLookup (String.mk (stripSuffix (aliasLookup m).data)) = m
    rw [halias, h, string_mk_data]
    exact halias

/-- C2 witness: `"Veidekke AS"` normalizes to
`"veidekke entreprenør"`, which has no trailing suffix token, so
normalizing twice equals normalizing once. -/
theorem normalize_customer_name_idempotent_witness :
    stripSuffix (normalize_customer_name "Veidekke AS").data
        = (normalize_customer_name "Veidekke AS").data
    ∧ normalize_customer_name (normalize_customer_name "Veidekke AS")
        = normalize_customer_name "Veidekke AS" :=
  ⟨by decide, normalize_customer_name_idempotent "Veidekke AS" (by decide)⟩
